import Mathlib

/-!
Verification of the Manifest CLI document-cleanup and markdown-manager tools.

The text transforms of scripts/document-cleanup.py (DocumentCleanup.clean_file,
clean_all, create_backup) and the content checks of scripts/markdown-manager.py
(MarkdownManager.validate_file) are embedded shallowly over List Char.
File contents are lists of characters; the Python text-mode read with default
newline handling (universal newlines) is modelled by univNewlines; fallible
filesystem steps are modelled by explicit error injection parameters.
Whitespace predicates cover the ASCII whitespace characters, which is what the
relevant Python string methods and regexes do on ASCII content.
-/

set_option maxRecDepth 8192

/-- The character class of the regex [ \t] and of the rstrip argument at
document-cleanup.py line 140. -/
def isSpTab (c : Char) : Bool := c == ' ' || c == '\t'

/-- ASCII whitespace as recognised by Python str.strip, str.rstrip and the
regex class backslash-s: space, tab, newline, carriage return, vertical tab,
form feed. -/
def isPyWS (c : Char) : Bool :=
  c == ' ' || c == '\t' || c == '\n' || c == '\r' || c == '\x0b' || c == '\x0c'

/-- Universal-newline decoding performed by opening a file in text mode with
the default newline setting (document-cleanup.py line 129): CR LF and lone CR
are translated to LF before the program sees the text. -/
def univNewlines : List Char → List Char
  | [] => []
  | [c] => if c = '\r' then ['\n'] else [c]
  | c :: d :: rest =>
    if c = '\r' && d = '\n' then '\n' :: univNewlines rest
    else (if c = '\r' then '\n' else c) :: univNewlines (d :: rest)

/-- Python readlines on decoded text: split after each newline, keeping the
newline at the end of each line; a final fragment without a newline is kept;
an empty file yields no lines. -/
def readlines : List Char → List (List Char)
  | [] => []
  | c :: rest =>
    if c = '\n' then ['\n'] :: readlines rest
    else match readlines rest with
      | [] => [[c]]
      | l :: ls => (c :: l) :: ls

/-- Python str.rstrip with an explicit character class: remove the maximal
trailing run of characters satisfying the class. -/
def rstripP (p : Char → Bool) : List Char → List Char
  | [] => []
  | c :: rest =>
    if rstripP p rest = [] && p c then [] else c :: rstripP p rest

/-- Python line.rstrip with argument space-tab: remove the maximal trailing
run of space and tab characters (document-cleanup.py line 140). -/
def rstripSpTab : List Char → List Char := rstripP isSpTab

/-- Python content.rstrip with no argument: remove the maximal trailing run of
whitespace characters (document-cleanup.py line 163). -/
def rstripWs : List Char → List Char := rstripP isPyWS

/-- Does the list end with the two characters CR LF. -/
def endsCRLF (l : List Char) : Bool :=
  match l.reverse with
  | '\n' :: '\r' :: _ => true
  | _ => false

/-- Does the list end with CR. -/
def endsCR (l : List Char) : Bool := l.getLast? == some '\r'

/-- Does the list end with LF. -/
def endsNL (l : List Char) : Bool := l.getLast? == some '\n'

/-- The body of the per-line loop of clean_file (document-cleanup.py lines
136-151): strip trailing space and tab, then normalise the line terminator;
a line that lacks a terminator and is not the last line gets one appended. -/
def cleanLine (isLast : Bool) (line : List Char) : List Char :=
  let cl := rstripSpTab line
  if endsCRLF cl then cl.dropLast.dropLast ++ ['\n']
  else if endsCR cl then cl.dropLast ++ ['\n']
  else if !endsNL cl && !isLast then cl ++ ['\n']
  else cl

/-- The per-line loop of clean_file applied to the list of lines; the index
comparison line_num < len(lines) in the source marks every line but the last. -/
def cleanLines : List (List Char) → List (List Char)
  | [] => []
  | [l] => [cleanLine true l]
  | l :: l2 :: rest => cleanLine false l :: cleanLines (l2 :: rest)

/-- Worker for collapseNl; the counter holds the number of pending consecutive
newlines not yet emitted. -/
def collapseAux : Nat → List Char → List Char
  | n, [] => List.replicate (if n ≥ 3 then 2 else n) '\n'
  | n, c :: rest =>
    if c = '\n' then collapseAux (n + 1) rest
    else List.replicate (if n ≥ 3 then 2 else n) '\n' ++ c :: collapseAux 0 rest

/-- The substitution re.sub of three or more consecutive newlines by exactly
two (document-cleanup.py line 157): every maximal run of at least three
newlines is replaced by two, all other characters are kept. -/
def collapseNl (s : List Char) : List Char := collapseAux 0 s

/-- Split on newline into segments, like Python str.split: an empty input
yields one empty segment, and each newline separates two segments. -/
def splitNl : List Char → List (List Char)
  | [] => [[]]
  | c :: rest =>
    if c = '\n' then [] :: splitNl rest
    else match splitNl rest with
      | [] => [[c]]
      | l :: ls => (c :: l) :: ls

/-- Rejoin segments with newline separators, the inverse of splitNl. -/
def joinNl : List (List Char) → List Char
  | [] => []
  | [l] => l
  | l :: l2 :: rest => l ++ '\n' :: joinNl (l2 :: rest)

/-- The action of the multiline substitution re.sub of a whole line of
spaces and tabs by the empty line, on one segment: a nonempty all space-tab
segment becomes empty (document-cleanup.py line 160). -/
def blankWs (l : List Char) : List Char :=
  if !l.isEmpty && l.all isSpTab then [] else l

/-- The multiline substitution that blanks whitespace-only lines
(document-cleanup.py line 160). -/
def blankWsLines (s : List Char) : List Char :=
  joinNl ((splitNl s).map blankWs)

/-- The whole transform pipeline of clean_file (document-cleanup.py lines
133-163) applied to the decoded text the program read: the per-line loop,
the collapse of runs of three or more newlines, the blanking of
whitespace-only lines, and the final rstrip plus a single newline. -/
def transformContent (original : List Char) : List Char :=
  rstripWs (blankWsLines (collapseNl ((cleanLines (readlines original)).flatten))) ++ ['\n']

/-- The content-level cleanup function: decode the raw on-disk characters as
the text-mode read does, then apply the transform pipeline of clean_file. -/
def cleanup (raw : List Char) : List Char :=
  transformContent ((readlines (univNewlines raw)).flatten)

/-- Convenience: the character list of a string literal. -/
def strL (s : String) : List Char := s.data

/-- The phase of clean_file in which an injected filesystem error occurs:
reading the file (document-cleanup.py lines 129-130) or writing it back
(lines 167-168); the transform itself is pure and cannot fail. -/
inductive CleanError
  | read
  | write
deriving DecidableEq

/-- The observable outcome of one clean_file call: the on-disk content
afterwards, the backup file kept on disk afterwards (none when it was deleted
or never created), the boolean return value, and whether the call logged
that no changes were needed. -/
structure CleanOutcome where
  disk : List Char
  backupKept : Option (List Char)
  success : Bool
  reportedNoChanges : Bool
deriving DecidableEq, Repr

/-- DocumentCleanup.clean_file (document-cleanup.py lines 106-185) on an
existing regular file with content disk. withBackup and dryRun are the
keyword arguments; backupFails makes create_backup return None; err injects
an exception into the read or the write, and partialWrite is whatever content
a failed write left behind. In dry run nothing is touched. Otherwise a backup
copy of the current content is taken when requested and possible; the file is
read and decoded, the pipeline of transformContent is applied, and the result
is written back only when it differs from the decoded original, else the
backup is deleted and no changes are reported. On an exception the original
content is restored from the backup when one exists and false is returned. -/
def clean_file (disk : List Char) (withBackup backupFails dryRun : Bool)
    (err : Option CleanError) (partialWrite : List Char) : CleanOutcome :=
  if dryRun then
    { disk := disk, backupKept := none, success := true, reportedNoChanges := false }
  else
    let backup : Option (List Char) :=
      if withBackup && !backupFails then some disk else none
    if err = some CleanError.read then
      { disk := match backup with | some b => b | none => disk
        backupKept := backup, success := false, reportedNoChanges := false }
    else
      let original := (readlines (univNewlines disk)).flatten
      let content := transformContent original
      if content ≠ original then
        if err = some CleanError.write then
          { disk := match backup with | some b => b | none => partialWrite
            backupKept := backup, success := false, reportedNoChanges := false }
        else
          { disk := content, backupKept := backup, success := true
            reportedNoChanges := false }
      else
        { disk := disk, backupKept := none, success := true
          reportedNoChanges := true }

/-- One work item for clean_all: a file content together with the error, if
any, that processing it will hit, and the partial content a failed write
would leave. -/
structure CleanJob where
  disk : List Char
  err : Option CleanError
  partialWrite : List Char

/-- DocumentCleanup.clean_all (document-cleanup.py lines 187-212): every file
is processed in order by clean_file, successes are counted, and the overall
result is whether every file succeeded. -/
def clean_all (jobs : List CleanJob) (withBackup backupFails : Bool) :
    List CleanOutcome × Nat × Bool :=
  let outcomes := jobs.map fun j =>
    clean_file j.disk withBackup backupFails false j.err j.partialWrite
  (outcomes, (outcomes.filter (·.success)).length,
    (outcomes.filter (·.success)).length = jobs.length)

/-- DocumentCleanup.create_backup (document-cleanup.py lines 92-104), with
the two fallible filesystem steps made explicit: the mkdir of the backup
directory at line 94 sits outside the try block, so its failure escapes as
an exception (modelled as Except.error); the copy at line 99 sits inside the
try, so its failure is logged and turned into the return value None. On
success the backup path embeds the file name and the timestamp. -/
def create_backup (name timestamp : String) (mkdirFails copyFails : Bool) :
    Except Unit (Option String) :=
  if mkdirFails then Except.error ()
  else if copyFails then Except.ok none
  else Except.ok (some (name ++ "." ++ timestamp ++ ".backup"))

/-- Does a segment end in a space or tab, as the multiline regex of one or
more space-tab characters before a line end matches there
(markdown-manager.py line 93). -/
def endsSpTab (l : List Char) : Bool :=
  match l.getLast? with
  | some c => isSpTab c
  | none => false

/-- Check 1 of validate_file: some line ends with a space or tab before its
terminator (markdown-manager.py lines 92-95). -/
def hasTrailingWs (content : List Char) : Bool :=
  (splitNl content).any endsSpTab

/-- Worker for hasBlankRun; the counter holds how many newlines the current
contiguous whitespace run has produced so far. -/
def blankRunAux : Nat → List Char → Bool
  | _, [] => false
  | n, c :: rest =>
    if c = '\n' then decide (n + 1 ≥ 4) || blankRunAux (n + 1) rest
    else if isPyWS c then blankRunAux n rest
    else blankRunAux 0 rest

/-- Check 2 of validate_file: the regex newline, whitespace star, three more
times, matches somewhere, i.e. some contiguous whitespace run contains at
least four newlines (markdown-manager.py lines 97-100). -/
def hasBlankRun (content : List Char) : Bool := blankRunAux 0 content

/-- The heading level of a line per the regex of one or more hash marks
followed by whitespace (markdown-manager.py line 105): the number of leading
hash marks, provided at least one whitespace character follows them. -/
def headingLevel (line : List Char) : Option Nat :=
  let n := (line.takeWhile (· == '#')).length
  if n = 0 then none
  else match line.drop n with
    | c :: _ => if isPyWS c then some n else none
    | [] => none

/-- Worker for headingFindings: walk the lines carrying the one-based line
number and the previous heading level, which starts at 0 and is updated after
every heading line whether or not it was flagged
(markdown-manager.py lines 102-111). -/
def skipFindingsAux : Nat → Nat → List (List Char) → List Nat
  | _, _, [] => []
  | ln, prev, l :: rest =>
    match headingLevel l with
    | some cur =>
      (if prev + 1 < cur then [ln] else []) ++ skipFindingsAux (ln + 1) cur rest
    | none => skipFindingsAux (ln + 1) prev rest

/-- Check 3 of validate_file: the line numbers of headings whose level
exceeds the previous heading level by more than one. -/
def headingFindings (content : List Char) : List Nat :=
  skipFindingsAux 1 0 (splitNl content)

/-- The headings of the content as pairs of one-based line number and level,
in order. -/
def headingsAux : Nat → List (List Char) → List (Nat × Nat)
  | _, [] => []
  | ln, l :: rest =>
    match headingLevel l with
    | some cur => (ln, cur) :: headingsAux (ln + 1) rest
    | none => headingsAux (ln + 1) rest

/-- All headings of a content with their line numbers and levels. -/
def headings (content : List Char) : List (Nat × Nat) :=
  headingsAux 1 (splitNl content)

/-- Check 4 of validate_file: the count of lines starting with a triple
backtick fence marker (markdown-manager.py line 114). -/
def codeFenceCount (content : List Char) : Nat :=
  ((splitNl content).filter
    (fun l => l.take 3 == List.replicate 3 (Char.ofNat 96))).length

/-- Check 4 of validate_file: an odd positive number of fence lines means an
unclosed code block (markdown-manager.py line 115). -/
def hasUnclosedFence (content : List Char) : Bool :=
  decide (0 < codeFenceCount content) && decide (codeFenceCount content % 2 = 1)

/-- Check 6 of validate_file: the stripped content is empty, i.e. the content
is all whitespace (markdown-manager.py line 125). -/
def isBlankContent (content : List Char) : Bool := content.all isPyWS

/-- The error count of MarkdownManager.validate_file on readable content
(markdown-manager.py lines 92-127), summed over the five error checks in
source order: trailing whitespace, excess blank lines, heading skips (one
error per finding), unclosed code fence, empty file. -/
def validate_errors (content : List Char) : Nat :=
  (if hasTrailingWs content then 1 else 0) +
  (if hasBlankRun content then 1 else 0) +
  (headingFindings content).length +
  (if hasUnclosedFence content then 1 else 0) +
  (if isBlankContent content then 1 else 0)

/-- The warning count of MarkdownManager.validate_file on readable content
(markdown-manager.py lines 119-132): a nonempty content not ending in a
newline, and a non-blank content whose first non-whitespace character is not
a hash mark. -/
def validate_warnings (content : List Char) : Nat :=
  (if !content.isEmpty && !endsNL content then 1 else 0) +
  (if !isBlankContent content &&
      ((content.dropWhile isPyWS).head? != some '#') then 1 else 0)

/-- MarkdownManager.validate_file on readable content: the pair of error and
warning counts. -/
def validate_file (content : List Char) : Nat × Nat :=
  (validate_errors content, validate_warnings content)

/-- The heading-skip findings determined by the list of heading levels alone,
carrying the previous level. -/
def skipsFrom : Nat → List (Nat × Nat) → List Nat
  | _, [] => []
  | prev, (ln, cur) :: rest =>
    (if prev + 1 < cur then [ln] else []) ++ skipsFrom cur rest

/-- A segment is acceptable when it is empty or not made of spaces and tabs
only; blanking whitespace-only lines leaves exactly such segments unchanged. -/
def segLineOK (l : List Char) : Bool := l.isEmpty || !l.all isSpTab

/-- No line of the content consists solely of spaces and tabs. -/
def segsOK (s : List Char) : Bool := (splitNl s).all segLineOK

/-- All lines after the first are acceptable segments. -/
def tailOK (s : List Char) : Bool := ((splitNl s).tail).all segLineOK

/-- The content has no run of three or more consecutive newlines. -/
def no3 : List Char → Bool
  | a :: b :: c :: rest =>
    !(a == '\n' && b == '\n' && c == '\n') && no3 (b :: c :: rest)
  | _ => true

/-- The first segment of the content: everything before the first newline. -/
def headSeg (s : List Char) : List Char := s.takeWhile (fun c => !(c == '\n'))

/-- The list is empty or its last character is not whitespace. -/
def endsNonWs (l : List Char) : Bool :=
  match l.getLast? with
  | some c => !isPyWS c
  | none => true

/-- C2: at the concrete line with a trailing space before its newline
terminator, the per-line cleaner of clean_file leaves the line unchanged,
and the whole cleanup pipeline also keeps the trailing space, because
rstrip with argument space-tab cannot strip before the newline that is
still attached to the line. -/
theorem claim_C2_bug :
    cleanLine false (strL "a \n") = strL "a \n" ∧
    cleanup (strL "a \nb\n") = strL "a \nb\n" ∧
    endsSpTab (strL "a ") = true := by
  decide

/-- C3: on the content of the end-to-end test of the spec, the cleanup
pipeline keeps the three trailing spaces after Line1, so it produces a
result different from the one the claim requires. -/
theorem claim_C3_bug :
    cleanup (strL "Line1   \nLine2\r\n\n\n\nLine3") =
      strL "Line1   \nLine2\n\nLine3\n" ∧
    strL "Line1   \nLine2\n\nLine3\n" ≠ strL "Line1\nLine2\n\nLine3\n" := by
  decide

/-- C6: a file stored with a CR LF terminator is decoded to LF on reading, so
the transformed content compares equal to the decoded original, the pass
reports no changes and never writes, and the on-disk content keeps its CR. -/
theorem claim_C6_bug :
    (clean_file (strL "a\r\n") true false false none []).success = true ∧
    (clean_file (strL "a\r\n") true false false none []).reportedNoChanges = true ∧
    (clean_file (strL "a\r\n") true false false none []).disk = strL "a\r\n" ∧
    '\r' ∈ (clean_file (strL "a\r\n") true false false none []).disk := by
  decide

/-- C10: the transform maps empty content to a single newline, which differs
from the original, so clean_file on an empty file writes a single newline,
reports a change and keeps the backup. -/
theorem claim_C10 :
    clean_file [] true false false none [] =
      { disk := ['\n'], backupKept := some [], success := true
        reportedNoChanges := false } ∧
    transformContent [] = ['\n'] ∧ (['\n'] : List Char) ≠ [] := by
  decide

/-- C1 counterexample: cleanup is not idempotent. Blanking the two
whitespace-only lines of this input creates a run of three newlines after the
collapse step already ran, so a second pass collapses further and changes the
output again. -/
theorem claim_C1_counterexample :
    cleanup (cleanup (strL "a\n \n \nb")) ≠ cleanup (strL "a\n \n \nb") := by
  decide

/-- C7 counterexample: when the backup directory cannot be created, the mkdir
at document-cleanup.py line 94 sits outside the try block and its exception
escapes create_backup, refuting the claim that create_backup never raises. -/
theorem claim_C7_counterexample :
    create_backup "a.md" "20260101_000000" true false = Except.error () := by
  rfl

/-- C7 amended: provided the backup directory can be created, create_backup
never raises: a copy failure is caught, logged and returned as None, and
otherwise the backup path embeds the original file name and the timestamp
followed by the backup extension. -/
theorem claim_C7_amended (name timestamp : String) (copyFails : Bool) :
    create_backup name timestamp false copyFails =
      Except.ok (if copyFails then none
                 else some (name ++ "." ++ timestamp ++ ".backup")) := by
  cases copyFails <;> simp [create_backup]

/-- C5: when the transformed content equals the decoded original that
clean_file read, no write happens, the on-disk content is untouched, the
call reports that no changes were needed, succeeds, and the backup created
for the call is deleted. -/
theorem claim_C5 (disk partialWrite : List Char) (withBackup backupFails : Bool)
    (hsame : transformContent ((readlines (univNewlines disk)).flatten) =
        (readlines (univNewlines disk)).flatten) :
    clean_file disk withBackup backupFails false none partialWrite =
      { disk := disk, backupKept := none, success := true
        reportedNoChanges := true } := by
  simp [clean_file, hsame]

/-- C5 witness: content of a single clean line is a fixed point of the
transform, so cleaning it reports no changes, writes nothing and keeps no
backup. -/
theorem claim_C5_witness :
    clean_file (strL "a\n") true false false none [] =
      { disk := strL "a\n", backupKept := none, success := true
        reportedNoChanges := true } :=
  claim_C5 (strL "a\n") [] true false (by decide)

/-- C4: if an exception occurs while reading, or while writing changed
content, and a backup exists, then clean_file leaves the file with its
pre-run content restored from the backup and returns false; and clean_all
processes every file of the batch regardless, producing one outcome per
file, so one failure never aborts the batch. -/
theorem claim_C4 (disk partialWrite : List Char) (err : CleanError)
    (hocc : err = CleanError.read ∨
      transformContent ((readlines (univNewlines disk)).flatten) ≠
        (readlines (univNewlines disk)).flatten) :
    (clean_file disk true false false (some err) partialWrite).disk = disk ∧
    (clean_file disk true false false (some err) partialWrite).success = false ∧
    ∀ (jobs : List CleanJob) (wb bf : Bool),
      (clean_all jobs wb bf).1 =
        jobs.map (fun j => clean_file j.disk wb bf false j.err j.partialWrite) ∧
      ((clean_all jobs wb bf).1).length = jobs.length := by
  refine ⟨?_, ?_, ?_⟩
  · cases err with
    | read => simp [clean_file]
    | write =>
      rcases hocc with h | h
      · exact absurd h (by simp)
      · simp [clean_file, h]
  · cases err with
    | read => simp [clean_file]
    | write =>
      rcases hocc with h | h
      · exact absurd h (by simp)
      · simp [clean_file, h]
  · intro jobs wb bf
    exact ⟨rfl, by simp [clean_all]⟩

/-- C4 witness: a read failure on a concrete file with a backup leaves the
file unchanged and returns false. -/
theorem claim_C4_witness :
    (clean_file (strL "a") true false false (some CleanError.read) []).disk =
      strL "a" ∧
    (clean_file (strL "a") true false false (some CleanError.read) []).success =
      false :=
  ⟨(claim_C4 (strL "a") [] CleanError.read (Or.inl rfl)).1,
   (claim_C4 (strL "a") [] CleanError.read (Or.inl rfl)).2.1⟩

/-- C8 counterexample: a whitespace-only file of three spaces yields two
errors from validate_file, not exactly one: the trailing-whitespace check
fires in addition to the empty-file check. -/
theorem claim_C8_counterexample : validate_errors (strL "   ") = 2 := by
  decide

/-- C8 amended: a zero-length file yields exactly one error, and a
whitespace-only file yields at least one error, its empty-file check always
fires; whitespace-only content can accrue further errors from the
trailing-whitespace and blank-line checks. -/
theorem claim_C8_amended :
    validate_errors [] = 1 ∧
    ∀ content : List Char, content ≠ [] → content.all isPyWS = true →
      1 ≤ validate_errors content := by
  refine ⟨by decide, ?_⟩
  intro content _ hws
  have hb : isBlankContent content = true := hws
  simp only [validate_errors, hb, if_true]
  omega

/-- C8 amended witness: the empty content yields exactly one error and the
three-space content yields at least one. -/
theorem claim_C8_witness :
    validate_errors [] = 1 ∧ 1 ≤ validate_errors (strL "   ") :=
  ⟨claim_C8_amended.1, claim_C8_amended.2 (strL "   ") (by decide) (by decide)⟩

/-- The heading-skip walk over the lines is determined by the sequence of
heading levels together with their line numbers. -/
theorem skipFindingsAux_eq_skipsFrom (lines : List (List Char)) :
    ∀ ln prev, skipFindingsAux ln prev lines = skipsFrom prev (headingsAux ln lines) := by
  induction lines with
  | nil => intro ln prev; rfl
  | cons l rest ih =>
    intro ln prev
    cases h : headingLevel l with
    | none => simp [skipFindingsAux, headingsAux, h, ih]
    | some cur => simp [skipFindingsAux, headingsAux, h, skipsFrom, ih]

/-- The findings of check 3 are the skips computed from the heading list. -/
theorem headingFindings_eq (content : List Char) :
    headingFindings content = skipsFrom 0 (headings content) :=
  skipFindingsAux_eq_skipsFrom (splitNl content) 1 0

/-- C9: the previous-level state starts at 0 and is updated after every
heading, so a document whose headings have levels 1, 2, 3 produces no
heading-skip finding, and a document whose headings have levels 1 and 3
produces exactly one finding carrying the line number of the level-3
heading. -/
theorem claim_C9 (content : List Char) :
    ((headings content).map Prod.snd = [1, 2, 3] →
      headingFindings content = []) ∧
    (∀ a b : Nat, headings content = [(a, 1), (b, 3)] →
      headingFindings content = [b]) := by
  constructor
  · intro h
    rw [headingFindings_eq]
    rcases hh : headings content with _ | ⟨⟨l1, v1⟩, _ | ⟨⟨l2, v2⟩, _ | ⟨⟨l3, v3⟩, rest⟩⟩⟩ <;>
      rw [hh] at h <;> simp at h
    obtain ⟨h1, h2, h3, h4⟩ := h
    subst h1; subst h2; subst h3; subst h4
    norm_num [skipsFrom]
  · intro a b h
    rw [headingFindings_eq, h]
    norm_num [skipsFrom]

/-- C9 witness: a concrete document with levels 1, 2, 3 yields no finding,
and a concrete document with levels 1 and 3 yields exactly one finding at
line 2, the line of its level-3 heading. -/
theorem claim_C9_witness :
    headingFindings (strL "# A\n## B\n### C\n") = [] ∧
    headingFindings (strL "# A\n### B\n") = [2] :=
  ⟨(claim_C9 (strL "# A\n## B\n### C\n")).1 (by decide),
   (claim_C9 (strL "# A\n### B\n")).2 1 2 (by decide)⟩

/-- An element obtained through getLast? is a member of the list. -/
theorem mem_of_getLastEq {l : List Char} {a : Char} (h : l.getLast? = some a) :
    a ∈ l := by
  obtain ⟨hne, rfl⟩ := List.mem_getLast?_eq_getLast (l := l) (x := a) (by rw [h]; rfl)
  exact List.getLast_mem hne

/-- Unfolding equation for rstripP on a cons cell, with a propositional
condition. -/
theorem rstripP_cons (p : Char → Bool) (c : Char) (rest : List Char) :
    rstripP p (c :: rest) =
      if rstripP p rest = [] ∧ p c = true then [] else c :: rstripP p rest := by
  simp only [rstripP]
  by_cases h1 : rstripP p rest = [] <;> by_cases h2 : p c <;> simp [h1, h2]

/-- Stripping is the identity when the last character is not in the class. -/
theorem rstripP_eq_self (p : Char → Bool) :
    ∀ {l : List Char} {c : Char}, l.getLast? = some c → p c = false →
      rstripP p l = l
  | [], c, h, _ => by simp at h
  | [d], c, h, hc => by
    simp only [List.getLast?_singleton, Option.some_inj] at h
    subst h
    rw [rstripP_cons]
    simp [rstripP, hc]
  | d :: e :: t, c, h, hc => by
    rw [List.getLast?_cons_cons] at h
    have ih := rstripP_eq_self p (l := e :: t) h hc
    rw [rstripP_cons, ih]
    simp

/-- The stripped list is a prefix of the input: some tail restores it. -/
theorem rstripP_append (p : Char → Bool) :
    ∀ l : List Char, ∃ t, rstripP p l ++ t = l
  | [] => ⟨[], rfl⟩
  | c :: rest => by
    obtain ⟨t, ht⟩ := rstripP_append p rest
    rw [rstripP_cons]
    by_cases hs : rstripP p rest = [] ∧ p c = true
    · exact ⟨c :: rest, by rw [if_pos hs]; rfl⟩
    · exact ⟨t, by rw [if_neg hs, List.cons_append, ht]⟩

/-- Characters of the stripped list come from the input. -/
theorem mem_rstripP (p : Char → Bool) {l : List Char} {c : Char}
    (h : c ∈ rstripP p l) : c ∈ l := by
  obtain ⟨t, ht⟩ := rstripP_append p l
  rw [← ht]
  exact List.mem_append_left t h

/-- The last character of a stripped list is not in the stripped class. -/
theorem rstripP_getLast (p : Char → Bool) :
    ∀ {l : List Char} {c : Char}, (rstripP p l).getLast? = some c →
      p c = false
  | [], c, h => by simp [rstripP] at h
  | d :: rest, c, h => by
    rw [rstripP_cons] at h
    by_cases hs : rstripP p rest = [] ∧ p d = true
    · rw [if_pos hs] at h
      simp at h
    · rw [if_neg hs] at h
      rcases he : rstripP p rest with _ | ⟨e, t⟩
      · rw [he] at h
        simp only [List.getLast?_singleton, Option.some_inj] at h
        subst h
        cases hp : p d with
        | false => rfl
        | true => exact absurd ⟨he, hp⟩ hs
      · rw [he, List.getLast?_cons_cons] at h
        exact rstripP_getLast p (l := rest) (he ▸ h)

/-- Decoded text never contains a carriage return. -/
theorem univNewlines_noCR : ∀ s : List Char, '\r' ∉ univNewlines s
  | [] => by simp [univNewlines]
  | [c] => by
    by_cases h : c = '\r'
    · subst h
      rw [show univNewlines ['\r'] = ['\n'] by simp [univNewlines]]
      decide
    · rw [show univNewlines [c] = [c] by simp [univNewlines, h]]
      simp only [List.mem_singleton]
      exact fun hc => h hc.symm
  | c :: d :: rest => by
    have ih1 := univNewlines_noCR rest
    have ih2 := univNewlines_noCR (d :: rest)
    by_cases h1 : c = '\r' ∧ d = '\n'
    · rw [show univNewlines (c :: d :: rest) = '\n' :: univNewlines rest by
        simp [univNewlines, h1.1, h1.2]]
      simp only [List.mem_cons]
      rintro (h | h)
      · exact absurd h (by decide)
      · exact ih1 h
    · have hcond : ¬(c = '\r' && d = '\n') = true := by
        simp only [Bool.and_eq_true, decide_eq_true_eq]
        exact h1
      rw [show univNewlines (c :: d :: rest) =
          (if c = '\r' then '\n' else c) :: univNewlines (d :: rest) by
        simp only [univNewlines, if_neg hcond]]
      simp only [List.mem_cons]
      rintro (h | h)
      · by_cases hc : c = '\r'
        · rw [if_pos hc] at h
          exact absurd h (by decide)
        · rw [if_neg hc] at h
          exact hc h.symm
      · exact ih2 h

/-- Decoding is the identity on text without carriage returns. -/
theorem univNewlines_eq_self : ∀ {s : List Char}, '\r' ∉ s → univNewlines s = s
  | [], _ => rfl
  | [c], h => by
    have hc : ¬c = '\r' := fun hc => h (by simp [hc])
    simp [univNewlines, hc]
  | c :: d :: rest, h => by
    have hc : ¬c = '\r' := fun hc => h (by simp [hc])
    have hrest : '\r' ∉ d :: rest := fun hm => h (List.mem_cons_of_mem c hm)
    have hcond : ¬(c = '\r' && d = '\n') = true := by
      simp only [Bool.and_eq_true, decide_eq_true_eq]
      exact fun hx => hc hx.1
    rw [show univNewlines (c :: d :: rest) =
        (if c = '\r' then '\n' else c) :: univNewlines (d :: rest) by
      simp only [univNewlines, if_neg hcond]]
    rw [if_neg hc, univNewlines_eq_self hrest]

/-- Rejoining the lines of readlines restores the text. -/
theorem flatten_readlines : ∀ s : List Char, (readlines s).flatten = s
  | [] => rfl
  | c :: rest => by
    have ih := flatten_readlines rest
    by_cases hc : c = '\n'
    · subst hc
      simp [readlines, List.flatten_cons, ih]
    · rw [show readlines (c :: rest) = match readlines rest with
        | [] => [[c]]
        | l :: ls => (c :: l) :: ls by simp [readlines, hc]]
      rcases hr : readlines rest with _ | ⟨l, ls⟩
      · rw [hr] at ih
        simp only [List.flatten_nil] at ih
        simp [← ih]
      · rw [hr] at ih
        simp only [List.flatten_cons] at ih ⊢
        simp [← ih]

/-- readlines yields no line on exactly the empty text. -/
theorem readlines_eq_nil : ∀ {s : List Char}, readlines s = [] → s = []
  | [], _ => rfl
  | c :: rest, h => by
    by_cases hc : c = '\n'
    · subst hc
      simp [readlines] at h
    · rw [show readlines (c :: rest) = match readlines rest with
        | [] => [[c]]
        | l :: ls => (c :: l) :: ls by simp [readlines, hc]] at h
      rcases hr : readlines rest with _ | ⟨l, ls⟩ <;> rw [hr] at h <;> simp at h

/-- Unfolding equation for readlines on a cons cell whose head is not a
newline. -/
theorem readlines_cons_ne (c : Char) (rest : List Char) (hc : ¬c = '\n') :
    readlines (c :: rest) = match readlines rest with
      | [] => [[c]]
      | l :: ls => (c :: l) :: ls := by
  simp [readlines, hc]

/-- Every line produced by readlines is nonempty. -/
theorem readlines_ne_nil : ∀ {s : List Char}, ∀ l ∈ readlines s, l ≠ []
  | [], l, hl => by simp [readlines] at hl
  | c :: rest, l, hl => by
    by_cases hc : c = '\n'
    · subst hc
      rw [show readlines ('\n' :: rest) = ['\n'] :: readlines rest by
        simp [readlines]] at hl
      simp only [List.mem_cons] at hl
      rcases hl with rfl | hl
      · simp
      · exact readlines_ne_nil l hl
    · rw [readlines_cons_ne c rest hc] at hl
      cases hr : readlines rest with
      | nil =>
        rw [hr] at hl
        simp only [List.mem_singleton] at hl
        simp [hl]
      | cons m ms =>
        rw [hr] at hl
        simp only [List.mem_cons] at hl
        rcases hl with rfl | hl
        · simp
        · exact readlines_ne_nil l (hr ▸ List.mem_cons_of_mem m hl)

/-- Every line produced by readlines carries a newline only as its final
character. -/
theorem readlines_nlAtEnd :
    ∀ {s : List Char}, ∀ l ∈ readlines s, '\n' ∉ l.dropLast
  | [], l, hl => by simp [readlines] at hl
  | c :: rest, l, hl => by
    by_cases hc : c = '\n'
    · subst hc
      rw [show readlines ('\n' :: rest) = ['\n'] :: readlines rest by
        simp [readlines]] at hl
      simp only [List.mem_cons] at hl
      rcases hl with rfl | hl
      · simp
      · exact readlines_nlAtEnd l hl
    · rw [readlines_cons_ne c rest hc] at hl
      cases hr : readlines rest with
      | nil =>
        rw [hr] at hl
        simp only [List.mem_singleton] at hl
        subst hl
        simp
      | cons m ms =>
        rw [hr] at hl
        simp only [List.mem_cons] at hl
        rcases hl with rfl | hl
        · have hmm : m ∈ readlines rest := by
            rw [hr]
            exact List.mem_cons_self m ms
          have hm : m ≠ [] := readlines_ne_nil m hmm
          have hmem : '\n' ∉ m.dropLast := readlines_nlAtEnd m hmm
          rcases m with _ | ⟨x, t⟩
          · exact absurd rfl hm
          · rw [List.dropLast_cons₂]
            simp only [List.mem_cons]
            rintro (h | h)
            · exact hc h.symm
            · exact hmem h
        · exact readlines_nlAtEnd l (hr ▸ List.mem_cons_of_mem m hl)

/-- Every line of readlines except the last ends with a newline. -/
theorem readlines_dropLast_endsNL :
    ∀ {s : List Char}, ∀ l ∈ (readlines s).dropLast, l.getLast? = some '\n'
  | [], l, hl => by simp [readlines] at hl
  | c :: rest, l, hl => by
    by_cases hc : c = '\n'
    · subst hc
      rw [show readlines ('\n' :: rest) = ['\n'] :: readlines rest by
        simp [readlines]] at hl
      cases hr : readlines rest with
      | nil =>
        rw [hr] at hl
        simp at hl
      | cons m ms =>
        rw [hr, List.dropLast_cons₂] at hl
        simp only [List.mem_cons] at hl
        rcases hl with rfl | hl
        · rfl
        · exact readlines_dropLast_endsNL l (hr ▸ hl)
    · rw [readlines_cons_ne c rest hc] at hl
      cases hr : readlines rest with
      | nil =>
        rw [hr] at hl
        simp at hl
      | cons m ms =>
        rw [hr] at hl
        cases ms with
        | nil => simp at hl
        | cons m2 ms2 =>
          rw [List.dropLast_cons₂] at hl
          simp only [List.mem_cons] at hl
          rcases hl with rfl | hl
          · have hmm : m ∈ readlines rest := by
              rw [hr]
              exact List.mem_cons_self m _
            have hm : m ≠ [] := readlines_ne_nil m hmm
            have hend : m.getLast? = some '\n' := by
              apply readlines_dropLast_endsNL m
              rw [hr, List.dropLast_cons₂]
              exact List.mem_cons_self m _
            rcases m with _ | ⟨x, t⟩
            · exact absurd rfl hm
            · rw [List.getLast?_cons_cons]
              exact hend
          · apply readlines_dropLast_endsNL l
            rw [hr, List.dropLast_cons₂]
            exact List.mem_cons_of_mem m hl

/-- A list without carriage return does not end in CR LF. -/
theorem endsCRLF_false_of_noCR {l : List Char} (h : '\r' ∉ l) :
    endsCRLF l = false := by
  unfold endsCRLF
  split
  · next heq =>
    exfalso
    apply h
    have hm : '\r' ∈ l.reverse := by
      rw [heq]
      simp
    simpa using hm
  · rfl

/-- A list without carriage return does not end in CR. -/
theorem endsCR_false_of_noCR {l : List Char} (h : '\r' ∉ l) :
    endsCR l = false := by
  unfold endsCR
  cases hg : l.getLast? with
  | none => rfl
  | some x =>
    by_cases hx : x = '\r'
    · exact absurd (mem_of_getLastEq (hx ▸ hg)) h
    · simp [hx]

/-- A list without newline does not end in LF. -/
theorem endsNL_false_of_noNL {l : List Char} (h : '\n' ∉ l) :
    endsNL l = false := by
  unfold endsNL
  cases hg : l.getLast? with
  | none => rfl
  | some x =>
    by_cases hx : x = '\n'
    · exact absurd (mem_of_getLastEq (hx ▸ hg)) h
    · simp [hx]

/-- A line that ends with a newline and contains no carriage return passes
through the per-line cleaner unchanged. -/
theorem cleanLine_of_endsNL {l : List Char} (b : Bool)
    (hnl : l.getLast? = some '\n') (hcr : '\r' ∉ l) : cleanLine b l = l := by
  have hstrip : rstripSpTab l = l := rstripP_eq_self isSpTab hnl (by decide)
  unfold cleanLine
  simp only [hstrip]
  rw [endsCRLF_false_of_noCR hcr, endsCR_false_of_noCR hcr]
  have : endsNL l = true := by
    unfold endsNL
    rw [hnl]
    rfl
  rw [this]
  simp

/-- The per-line cleaner on the last line without carriage return and with a
newline at most as its final character reduces to the trailing space-tab
strip. -/
theorem cleanLine_last {l : List Char} (hcr : '\r' ∉ l)
    (hmid : '\n' ∉ l.dropLast) : cleanLine true l = rstripSpTab l := by
  by_cases hnl : l.getLast? = some '\n'
  · rw [cleanLine_of_endsNL true hnl hcr]
    exact ((rstripP_eq_self isSpTab hnl (by decide)).symm : l = rstripSpTab l)
  · have hnoNL : '\n' ∉ l := by
      intro hmem
      have hne : l ≠ [] := List.ne_nil_of_mem hmem
      have hdec := List.dropLast_append_getLast hne
      rw [← hdec] at hmem
      rcases List.mem_append.mp hmem with h | h
      · exact hmid h
      · apply hnl
        rw [List.getLast?_eq_getLast_of_ne_nil hne]
        rw [← List.mem_singleton.mp h]
    have hcr2 : '\r' ∉ rstripSpTab l := fun hm => hcr (mem_rstripP isSpTab hm)
    have hnl2 : '\n' ∉ rstripSpTab l := fun hm => hnoNL (mem_rstripP isSpTab hm)
    unfold cleanLine
    simp only
    rw [endsCRLF_false_of_noCR hcr2, endsCR_false_of_noCR hcr2,
      endsNL_false_of_noNL hnl2]
    simp

/-- Stripping a concatenation whose left part ends outside the class only
affects the right part. -/
theorem rstripP_append_left (p : Char → Bool) :
    ∀ (a b : List Char),
      (a = [] ∨ ∃ c, a.getLast? = some c ∧ p c = false) →
      rstripP p (a ++ b) = a ++ rstripP p b
  | [], b, _ => by simp
  | [c], b, h => by
    rcases h with h | ⟨d, hd, hpd⟩
    · simp at h
    · simp only [List.getLast?_singleton, Option.some_inj] at hd
      subst hd
      rw [List.singleton_append, rstripP_cons]
      rw [if_neg (by rintro ⟨_, hpc⟩; rw [hpd] at hpc; exact absurd hpc (by simp))]
      rfl
  | c :: d :: t, b, h => by
    rcases h with h | ⟨e, he, hpe⟩
    · simp at h
    · rw [List.getLast?_cons_cons] at he
      have ih := rstripP_append_left p (d :: t) b (Or.inr ⟨e, he, hpe⟩)
      rw [List.cons_append, rstripP_cons, ih]
      rw [if_neg (by rintro ⟨hnil, _⟩; simp at hnil)]
      rfl

/-- A flatten of newline-terminated lists is empty or ends with a newline. -/
theorem flatten_endsNL :
    ∀ (L : List (List Char)), (∀ l ∈ L, l.getLast? = some '\n') →
      L.flatten = [] ∨ L.flatten.getLast? = some '\n'
  | [], _ => Or.inl rfl
  | l :: L', h => by
    rcases flatten_endsNL L' (fun m hm => h m (List.mem_cons_of_mem l hm)) with
      h0 | h0
    · rw [List.flatten_cons, h0, List.append_nil]
      exact Or.inr (h l (List.mem_cons_self l L'))
    · right
      rw [List.flatten_cons]
      have hne : L'.flatten ≠ [] := by
        intro hx
        rw [hx] at h0
        simp at h0
      rw [List.getLast?_append_of_ne_nil l hne]
      exact h0

/-- The flattened output of the per-line loop equals the untouched non-final
lines followed by the stripped final line, for well-formed line lists. -/
theorem flatten_cleanLines :
    ∀ (R : List (List Char)),
      (∀ l ∈ R, '\r' ∉ l) →
      (∀ l ∈ R, '\n' ∉ l.dropLast) →
      (∀ l ∈ R.dropLast, l.getLast? = some '\n') →
      (cleanLines R).flatten = R.dropLast.flatten ++ rstripSpTab (R.getLastD [])
  | [], _, _, _ => by simp [cleanLines]; rfl
  | [l], h1, h2, _ => by
    rw [show cleanLines [l] = [cleanLine true l] from rfl]
    rw [cleanLine_last (h1 l (List.mem_singleton_self l))
      (h2 l (List.mem_singleton_self l))]
    simp
  | l :: l2 :: R', h1, h2, h3 => by
    have hmem : l ∈ (l :: l2 :: R').dropLast := by
      rw [List.dropLast_cons₂]
      exact List.mem_cons_self l _
    have hl : cleanLine false l = l :=
      cleanLine_of_endsNL false (h3 l hmem) (h1 l (List.mem_cons_self l _))
    have ih := flatten_cleanLines (l2 :: R')
      (fun m hm => h1 m (List.mem_cons_of_mem l hm))
      (fun m hm => h2 m (List.mem_cons_of_mem l hm))
      (fun m hm => h3 m (by
        rw [List.dropLast_cons₂]
        exact List.mem_cons_of_mem l hm))
    rw [show cleanLines (l :: l2 :: R') =
        cleanLine false l :: cleanLines (l2 :: R') from rfl]
    rw [List.flatten_cons, hl, ih, List.dropLast_cons₂, List.flatten_cons]
    rw [List.append_assoc]
    have hgd : (l :: l2 :: R').getLastD [] = (l2 :: R').getLastD [] := by
      rw [List.getLastD_eq_getLast?, List.getLastD_eq_getLast?,
        List.getLast?_cons_cons]
    rw [hgd]

/-- Structure of the per-line phase: on text without carriage returns, the
loop over the lines of readlines amounts to stripping trailing spaces and
tabs from the very end of the text. -/
theorem flatten_cleanLines_readlines (s : List Char) (hcr : '\r' ∉ s) :
    (cleanLines (readlines s)).flatten = rstripSpTab s := by
  have h1 : ∀ l ∈ readlines s, '\r' ∉ l := by
    intro l hl hmem
    apply hcr
    rw [← flatten_readlines s]
    exact List.mem_flatten.mpr ⟨l, hl, hmem⟩
  have hmain := flatten_cleanLines (readlines s) h1
    (fun l hl => readlines_nlAtEnd l hl)
    (fun l hl => readlines_dropLast_endsNL l hl)
  rw [hmain]
  by_cases hR : readlines s = []
  · have : s = [] := readlines_eq_nil hR
    subst this
    rw [hR]
    simp
  · have hRne : readlines s ≠ [] := hR
    have hdec := List.dropLast_append_getLast hRne
    have hs : (readlines s).dropLast.flatten ++ (readlines s).getLast hRne = s := by
      conv_rhs => rw [← flatten_readlines s]
      conv_rhs => rw [← hdec]
      rw [List.flatten_append]
      simp
    have hgd : (readlines s).getLastD [] = (readlines s).getLast hRne := by
      rw [List.getLastD_eq_getLast?, List.getLast?_eq_getLast_of_ne_nil hRne]
      rfl
    have hcond : (readlines s).dropLast.flatten = [] ∨
        ∃ c, ((readlines s).dropLast.flatten).getLast? = some c ∧
          isSpTab c = false := by
      rcases flatten_endsNL (readlines s).dropLast
          (fun l hl => readlines_dropLast_endsNL l hl) with h0 | h0
      · exact Or.inl h0
      · exact Or.inr ⟨'\n', h0, by decide⟩
    have hstep := rstripP_append_left isSpTab
      (readlines s).dropLast.flatten [(readlines s).getLast hRne].flatten hcond
    simp only [List.flatten_cons, List.flatten_nil, List.append_nil] at hstep
    rw [hgd]
    unfold rstripSpTab
    rw [← hstep, hs]

/-- Unfolding equation for no3 on three or more elements. -/
theorem no3_cons3 (a b c : Char) (r : List Char) :
    no3 (a :: b :: c :: r) =
      (!(a == '\n' && b == '\n' && c == '\n') && no3 (b :: c :: r)) := rfl

/-- no3 passes to the tail. -/
theorem no3_tail {c : Char} {t : List Char} (h : no3 (c :: t) = true) :
    no3 t = true := by
  rcases t with _ | ⟨x, _ | ⟨y, t'⟩⟩
  · rfl
  · rfl
  · rw [no3_cons3, Bool.and_eq_true] at h
    exact h.2

/-- Prepending a character other than newline preserves no3. -/
theorem no3_cons_ne {c : Char} (hc : ¬c = '\n') {t : List Char}
    (h : no3 t = true) : no3 (c :: t) = true := by
  rcases t with _ | ⟨x, _ | ⟨y, t'⟩⟩
  · rfl
  · rfl
  · rw [no3_cons3, h, Bool.and_true, Bool.not_eq_true', Bool.and_eq_false_iff]
    left
    simp [hc]

/-- no3 restricts to the left part of a concatenation. -/
theorem no3_append_left :
    ∀ (a t : List Char), no3 (a ++ t) = true → no3 a = true
  | [], _, _ => rfl
  | [x], _, _ => rfl
  | [x, y], _, _ => rfl
  | x :: y :: z :: r, t, h => by
    rw [List.cons_append, List.cons_append, List.cons_append, no3_cons3,
      Bool.and_eq_true] at h
    have ih := no3_append_left (y :: z :: r) t (by
      rw [List.cons_append, List.cons_append]
      exact h.2)
    rw [no3_cons3, Bool.and_eq_true]
    exact ⟨h.1, ih⟩

/-- no3 restricts to the right part of a concatenation. -/
theorem no3_append_right :
    ∀ (a t : List Char), no3 (a ++ t) = true → no3 t = true
  | [], _, h => h
  | _ :: a', t, h => no3_append_right a' t (no3_tail h)

/-- At most two pending newlines followed by a non-newline head keep no3. -/
theorem no3_repl_cons {m : Nat} (hm : m ≤ 2) {c : Char} (hc : ¬c = '\n')
    {t : List Char} (h : no3 (c :: t) = true) :
    no3 (List.replicate m '\n' ++ c :: t) = true := by
  have h1 : no3 ('\n' :: c :: t) = true := by
    rcases t with _ | ⟨x, t'⟩
    · rfl
    · rw [no3_cons3, Bool.and_eq_true]
      refine ⟨?_, h⟩
      simp [hc]
  interval_cases m
  · simpa using h
  · simpa using h1
  · rw [show List.replicate 2 '\n' ++ c :: t = '\n' :: '\n' :: c :: t by rfl,
      no3_cons3, Bool.and_eq_true]
    refine ⟨?_, h1⟩
    simp [hc]

/-- Up to two newlines alone satisfy no3. -/
theorem no3_repl {m : Nat} (hm : m ≤ 2) :
    no3 (List.replicate m '\n') = true := by
  interval_cases m
  · rfl
  · rfl
  · rfl

/-- The collapse of newline runs never leaves three consecutive newlines. -/
theorem collapseAux_no3 :
    ∀ (s : List Char) (n : Nat), no3 (collapseAux n s) = true
  | [], n => by
    rw [show collapseAux n [] =
      List.replicate (if n ≥ 3 then 2 else n) '\n' from rfl]
    by_cases hn : n ≥ 3
    · rw [if_pos hn]
      rfl
    · rw [if_neg hn]
      exact no3_repl (by omega)
  | c :: rest, n => by
    by_cases hc : c = '\n'
    · rw [show collapseAux n (c :: rest) = collapseAux (n + 1) rest by
        simp [collapseAux, hc]]
      exact collapseAux_no3 rest (n + 1)
    · rw [show collapseAux n (c :: rest) =
        List.replicate (if n ≥ 3 then 2 else n) '\n' ++
          c :: collapseAux 0 rest by simp [collapseAux, hc]]
      have hin : no3 (c :: collapseAux 0 rest) = true :=
        no3_cons_ne hc (collapseAux_no3 rest 0)
      by_cases hn : n ≥ 3
      · rw [if_pos hn]
        exact no3_repl_cons (by omega) hc hin
      · rw [if_neg hn]
        exact no3_repl_cons (by omega) hc hin

/-- Replicate followed by one more of the same element. -/
theorem replicate_append_cons (n : Nat) (c : Char) (l : List Char) :
    List.replicate n c ++ c :: l = List.replicate (n + 1) c ++ l := by
  rw [List.replicate_succ']
  simp

/-- The collapse of newline runs is the identity on content with no run of
three newlines, given the pending counter is consistent. -/
theorem collapseAux_eq_self :
    ∀ (s : List Char) (n : Nat), n ≤ 2 →
      no3 (List.replicate n '\n' ++ s) = true →
      collapseAux n s = List.replicate n '\n' ++ s
  | [], n, hn, _ => by
    rw [show collapseAux n [] =
      List.replicate (if n ≥ 3 then 2 else n) '\n' from rfl]
    rw [if_neg (by omega)]
    simp
  | c :: rest, n, hn, h => by
    by_cases hc : c = '\n'
    · subst hc
      rw [show collapseAux n ('\n' :: rest) = collapseAux (n + 1) rest by
        simp [collapseAux]]
      rw [replicate_append_cons] at h
      by_cases hn1 : n + 1 ≤ 2
      · rw [collapseAux_eq_self rest (n + 1) hn1 h, replicate_append_cons]
      · exfalso
        have hn2 : n = 2 := by omega
        subst hn2
        rw [show List.replicate (2 + 1) '\n' ++ rest =
          '\n' :: '\n' :: '\n' :: rest by rfl, no3_cons3] at h
        simp at h
    · rw [show collapseAux n (c :: rest) =
        List.replicate (if n ≥ 3 then 2 else n) '\n' ++
          c :: collapseAux 0 rest by simp [collapseAux, hc]]
      rw [if_neg (by omega)]
      have hrest : no3 rest = true :=
        no3_tail (no3_append_right (List.replicate n '\n') (c :: rest) h)
      rw [collapseAux_eq_self rest 0 (by omega) (by simpa using hrest)]
      simp

/-- The collapse step is the identity on content with no triple newline. -/
theorem collapseNl_eq_self {s : List Char} (h : no3 s = true) :
    collapseNl s = s := by
  have := collapseAux_eq_self s 0 (by omega) (by simpa using h)
  simpa [collapseNl] using this

/-- splitNl always produces at least one segment. -/
theorem splitNl_ne_nil : ∀ s : List Char, splitNl s ≠ []
  | [] => by simp [splitNl]
  | c :: rest => by
    by_cases hc : c = '\n'
    · simp [splitNl, hc]
    · rw [show splitNl (c :: rest) = match splitNl rest with
        | [] => [[c]]
        | l :: ls => (c :: l) :: ls by simp [splitNl, hc]]
      cases hr : splitNl rest with
      | nil => simp
      | cons l ls => simp

/-- Unfolding equation for splitNl on a leading newline. -/
theorem splitNl_nl (rest : List Char) :
    splitNl ('\n' :: rest) = [] :: splitNl rest := by
  simp [splitNl]

/-- Unfolding equation for splitNl on a leading non-newline character. -/
theorem splitNl_cons_ne {c : Char} (hc : ¬c = '\n') {rest : List Char}
    {l : List Char} {ls : List (List Char)} (hr : splitNl rest = l :: ls) :
    splitNl (c :: rest) = (c :: l) :: ls := by
  rw [show splitNl (c :: rest) = match splitNl rest with
    | [] => [[c]]
    | m :: ms => (c :: m) :: ms by simp [splitNl, hc]]
  rw [hr]

/-- The first segment is the prefix before the first newline. -/
theorem head?_splitNl : ∀ s : List Char, (splitNl s).head? = some (headSeg s)
  | [] => rfl
  | c :: rest => by
    by_cases hc : c = '\n'
    · subst hc
      rw [splitNl_nl]
      rfl
    · cases hr : splitNl rest with
      | nil => exact absurd hr (splitNl_ne_nil rest)
      | cons l ls =>
        rw [splitNl_cons_ne hc hr]
        have ih := head?_splitNl rest
        rw [hr] at ih
        simp only [List.head?_cons, Option.some_inj] at ih
        subst ih
        simp only [List.head?_cons, Option.some_inj]
        simp [headSeg, List.takeWhile_cons, hc]

/-- splitNl decomposes as its first segment followed by the rest. -/
theorem splitNl_eq_headSeg_cons (s : List Char) :
    splitNl s = headSeg s :: (splitNl s).tail := by
  cases hr : splitNl s with
  | nil => exact absurd hr (splitNl_ne_nil s)
  | cons l ls =>
    have := head?_splitNl s
    rw [hr] at this
    simp only [List.head?_cons, Option.some_inj] at this
    rw [this]
    rfl

/-- joinNl pulls a head character out of the first segment. -/
theorem joinNl_cons_cons (c : Char) (l : List Char) (ls : List (List Char)) :
    joinNl ((c :: l) :: ls) = c :: joinNl (l :: ls) := by
  cases ls with
  | nil => rfl
  | cons m ms => rfl

/-- joinNl is a left inverse of splitNl. -/
theorem joinNl_splitNl : ∀ s : List Char, joinNl (splitNl s) = s
  | [] => rfl
  | c :: rest => by
    by_cases hc : c = '\n'
    · subst hc
      rw [splitNl_nl]
      cases hr : splitNl rest with
      | nil => exact absurd hr (splitNl_ne_nil rest)
      | cons l ls =>
        rw [show joinNl ([] :: l :: ls) = [] ++ '\n' :: joinNl (l :: ls)
          from rfl]
        have ih := joinNl_splitNl rest
        rw [hr] at ih
        rw [ih]
        rfl
    · cases hr : splitNl rest with
      | nil => exact absurd hr (splitNl_ne_nil rest)
      | cons l ls =>
        rw [splitNl_cons_ne hc hr, joinNl_cons_cons]
        have ih := joinNl_splitNl rest
        rw [hr] at ih
        rw [ih]

/-- getLastD on a singleton. -/
theorem getLastD_single (x d : List Char) : [x].getLastD d = x := rfl

/-- How splitNl treats a concatenation: the last segment of the left part
merges with the first segment of the right part. -/
theorem splitNl_append :
    ∀ (a b : List Char),
      splitNl (a ++ b) = (splitNl a).dropLast ++
        ((splitNl a).getLastD [] ++ headSeg b) :: (splitNl b).tail
  | [], b => by
    rw [List.nil_append]
    rw [show splitNl ([] : List Char) = [[]] from rfl]
    rw [show ([[]] : List (List Char)).dropLast = [] from rfl]
    rw [getLastD_single, List.nil_append, List.nil_append,
      ← splitNl_eq_headSeg_cons]
  | c :: a', b => by
    have IH := splitNl_append a' b
    by_cases hc : c = '\n'
    · subst hc
      cases hXe : splitNl a' with
      | nil => exact absurd hXe (splitNl_ne_nil a')
      | cons x0 xs =>
        rw [hXe] at IH
        rw [List.cons_append, splitNl_nl, IH, splitNl_nl, hXe]
        simp only [List.dropLast_cons₂, List.getLastD_cons, List.cons_append]
    · cases hXe : splitNl a' with
      | nil => exact absurd hXe (splitNl_ne_nil a')
      | cons x0 xs =>
        rw [hXe] at IH
        cases xs with
        | nil =>
          rw [show ([x0] : List (List Char)).dropLast = [] from rfl,
            getLastD_single, List.nil_append] at IH
          rw [List.cons_append,
            splitNl_cons_ne hc IH,
            splitNl_cons_ne hc hXe]
          rw [show ([c :: x0] : List (List Char)).dropLast = [] from rfl,
            getLastD_single, List.nil_append, List.cons_append]
        | cons x1 xs' =>
          rw [List.dropLast_cons₂, List.cons_append] at IH
          rw [List.cons_append,
            splitNl_cons_ne hc IH,
            splitNl_cons_ne hc hXe]
          simp only [List.dropLast_cons₂, List.getLastD_cons, List.cons_append]

/-- Appending a final newline appends one empty segment. -/
theorem splitNl_snoc_nl (w : List Char) :
    splitNl (w ++ ['\n']) = splitNl w ++ [[]] := by
  rw [splitNl_append w ['\n']]
  rw [show splitNl ['\n'] = [[], []] from rfl]
  rw [show headSeg ['\n'] = [] from rfl]
  rw [List.append_nil]
  have hne := splitNl_ne_nil w
  have hdec := List.dropLast_append_getLast hne
  have hgd : (splitNl w).getLastD [] = (splitNl w).getLast hne := by
    rw [List.getLastD_eq_getLast?, List.getLast?_eq_getLast_of_ne_nil hne]
    rfl
  rw [hgd]
  rw [show ([[], []] : List (List Char)).tail = [[]] from rfl]
  rw [show ((splitNl w).getLast hne :: ([[]] : List (List Char))) =
    [(splitNl w).getLast hne] ++ [[]] from rfl]
  rw [← List.append_assoc, hdec]

/-- splitNl of leading newlines prepends empty segments. -/
theorem splitNl_replicate :
    ∀ (m : Nat) (t : List Char),
      splitNl (List.replicate m '\n' ++ t) = List.replicate m [] ++ splitNl t
  | 0, t => by simp
  | m + 1, t => by
    rw [List.replicate_succ, List.cons_append, splitNl_nl,
      splitNl_replicate m t, List.replicate_succ, List.cons_append]

/-- The last segment keeps the last character when it is not a newline. -/
theorem lastSeg_getLast {s : List Char} {c : Char}
    (h : s.getLast? = some c) (hc : ¬c = '\n') :
    ((splitNl s).getLastD []).getLast? = some c := by
  have hne : s ≠ [] := by
    intro hx
    rw [hx] at h
    simp at h
  have hdec := List.dropLast_append_getLast hne
  have hlast : s.getLast hne = c := by
    have := List.getLast?_eq_getLast_of_ne_nil hne
    rw [h] at this
    exact (Option.some_inj.mp this).symm
  have happ := splitNl_append s.dropLast [s.getLast hne]
  rw [hdec] at happ
  rw [happ, hlast]
  rw [show splitNl [c] = [[c]] by simp [splitNl, hc]]
  rw [show headSeg [c] = [c] by simp [headSeg, List.takeWhile_cons, hc]]
  rw [show (([[c]] : List (List Char))).tail = [] from rfl]
  rw [List.getLastD_concat]
  simp

/-- The last segment is empty when the content ends with a newline. -/
theorem lastSeg_of_endsNL {s : List Char} (h : s.getLast? = some '\n') :
    (splitNl s).getLastD [] = [] := by
  have hne : s ≠ [] := by
    intro hx
    rw [hx] at h
    simp at h
  have hdec := List.dropLast_append_getLast hne
  have hlast : s.getLast hne = '\n' := by
    have := List.getLast?_eq_getLast_of_ne_nil hne
    rw [h] at this
    exact (Option.some_inj.mp this).symm
  have hdec2 : s.dropLast ++ ['\n'] = s := by
    rw [← hlast]
    exact hdec
  rw [← hdec2, splitNl_snoc_nl, List.getLastD_concat]

/-- segsOK splits into the check of the first segment and of the rest. -/
theorem segsOK_eq (s : List Char) :
    segsOK s = (segLineOK (headSeg s) && tailOK s) := by
  unfold segsOK tailOK
  conv_lhs => rw [splitNl_eq_headSeg_cons s]
  rw [List.all_cons]

/-- segsOK ignores a leading newline. -/
theorem segsOK_nl (rest : List Char) :
    segsOK ('\n' :: rest) = segsOK rest := by
  unfold segsOK
  rw [splitNl_nl, List.all_cons]
  rfl

/-- After a leading newline, the tail segments are all the segments of the
rest. -/
theorem tailOK_nl (rest : List Char) :
    tailOK ('\n' :: rest) = segsOK rest := by
  unfold tailOK segsOK
  rw [splitNl_nl, List.tail_cons]

/-- A leading non-newline character does not change the tail segments. -/
theorem tailOK_cons_ne {c : Char} (hc : ¬c = '\n') (rest : List Char) :
    tailOK (c :: rest) = tailOK rest := by
  unfold tailOK
  cases hr : splitNl rest with
  | nil => exact absurd hr (splitNl_ne_nil rest)
  | cons l ls => rw [splitNl_cons_ne hc hr, List.tail_cons, List.tail_cons]

/-- The first segment grows by a leading non-newline character. -/
theorem headSeg_cons_ne {c : Char} (hc : ¬c = '\n') (rest : List Char) :
    headSeg (c :: rest) = c :: headSeg rest := by
  simp [headSeg, List.takeWhile_cons, hc]

/-- segsOK implies tailOK. -/
theorem tailOK_of_segsOK {s : List Char} (h : segsOK s = true) :
    tailOK s = true := by
  rw [segsOK_eq, Bool.and_eq_true] at h
  exact h.2

/-- Leading newlines do not affect segsOK. -/
theorem segsOK_replicate_append (m : Nat) (t : List Char) :
    segsOK (List.replicate m '\n' ++ t) = segsOK t := by
  unfold segsOK
  rw [splitNl_replicate, List.all_append]
  have : (List.replicate m ([] : List Char)).all segLineOK = true := by
    rw [List.all_eq_true]
    intro l hl
    rw [List.eq_of_mem_replicate hl]
    rfl
  rw [this, Bool.true_and]

/-- Appending a final newline preserves segsOK. -/
theorem segsOK_snoc_nl {w : List Char} (h : segsOK w = true) :
    segsOK (w ++ ['\n']) = true := by
  unfold segsOK at h ⊢
  rw [splitNl_snoc_nl, List.all_append, h]
  rfl

/-- The first segment of text starting with a newline is empty. -/
theorem headSeg_nl (t : List Char) : headSeg ('\n' :: t) = [] := by
  simp [headSeg, List.takeWhile_cons]

/-- With pending newlines the collapse output starts with a newline, so its
first segment is empty. -/
theorem headSeg_collapseAux_pos :
    ∀ (s : List Char) (n : Nat), 1 ≤ n → headSeg (collapseAux n s) = []
  | [], n, hn => by
    rw [show collapseAux n [] =
      List.replicate (if n ≥ 3 then 2 else n) '\n' from rfl]
    have hm : 1 ≤ if n ≥ 3 then 2 else n := by
      by_cases h3 : n ≥ 3
      · rw [if_pos h3]; omega
      · rw [if_neg h3]; omega
    obtain ⟨k, hk⟩ : ∃ k, (if n ≥ 3 then 2 else n) = k + 1 :=
      ⟨(if n ≥ 3 then 2 else n) - 1, by omega⟩
    rw [hk, List.replicate_succ]
    exact headSeg_nl _
  | c :: rest, n, hn => by
    by_cases hc : c = '\n'
    · rw [show collapseAux n (c :: rest) = collapseAux (n + 1) rest by
        simp [collapseAux, hc]]
      exact headSeg_collapseAux_pos rest (n + 1) (by omega)
    · rw [show collapseAux n (c :: rest) =
        List.replicate (if n ≥ 3 then 2 else n) '\n' ++
          c :: collapseAux 0 rest by simp [collapseAux, hc]]
      have hm : 1 ≤ if n ≥ 3 then 2 else n := by
        by_cases h3 : n ≥ 3
        · rw [if_pos h3]; omega
        · rw [if_neg h3]; omega
      obtain ⟨k, hk⟩ : ∃ k, (if n ≥ 3 then 2 else n) = k + 1 :=
        ⟨(if n ≥ 3 then 2 else n) - 1, by omega⟩
      rw [hk, List.replicate_succ, List.cons_append]
      exact headSeg_nl _

/-- Without pending newlines the collapse keeps the first segment. -/
theorem headSeg_collapseAux_zero :
    ∀ s : List Char, headSeg (collapseAux 0 s) = headSeg s
  | [] => rfl
  | c :: rest => by
    by_cases hc : c = '\n'
    · subst hc
      rw [show collapseAux 0 ('\n' :: rest) = collapseAux 1 rest by
        simp [collapseAux]]
      rw [headSeg_collapseAux_pos rest 1 (by omega), headSeg_nl]
    · rw [show collapseAux 0 (c :: rest) = c :: collapseAux 0 rest by
        simp [collapseAux, hc]]
      rw [headSeg_cons_ne hc, headSeg_cons_ne hc,
        headSeg_collapseAux_zero rest]

/-- The collapse of newline runs preserves acceptable segments: with no
pending newline it preserves the tail segments, and with pending newlines it
preserves all segments. -/
theorem collapseAux_segsOK :
    ∀ (s : List Char) (n : Nat),
      (tailOK s = true → tailOK (collapseAux 0 s) = true) ∧
      (1 ≤ n → segsOK s = true → segsOK (collapseAux n s) = true)
  | [], n => by
    constructor
    · intro _
      rw [show collapseAux 0 ([] : List Char) = [] from rfl]
      rfl
    · intro _ _
      rw [show collapseAux n [] =
        List.replicate (if n ≥ 3 then 2 else n) '\n' from rfl]
      rw [show (List.replicate (if n ≥ 3 then 2 else n) '\n') =
        List.replicate (if n ≥ 3 then 2 else n) '\n' ++ [] by simp]
      rw [segsOK_replicate_append]
      rfl
  | c :: rest, n => by
    by_cases hc : c = '\n'
    · subst hc
      constructor
      · intro ht
        rw [show collapseAux 0 ('\n' :: rest) = collapseAux 1 rest by
          simp [collapseAux]]
        rw [tailOK_nl] at ht
        exact tailOK_of_segsOK
          ((collapseAux_segsOK rest 1).2 (by omega) ht)
      · intro _ hs
        rw [show collapseAux n ('\n' :: rest) = collapseAux (n + 1) rest by
          simp [collapseAux]]
        rw [segsOK_nl] at hs
        exact (collapseAux_segsOK rest (n + 1)).2 (by omega) hs
    · constructor
      · intro ht
        rw [show collapseAux 0 (c :: rest) = c :: collapseAux 0 rest by
          simp [collapseAux, hc]]
        rw [tailOK_cons_ne hc] at ht
        rw [tailOK_cons_ne hc]
        exact (collapseAux_segsOK rest 0).1 ht
      · intro _ hs
        rw [show collapseAux n (c :: rest) =
          List.replicate (if n ≥ 3 then 2 else n) '\n' ++
            c :: collapseAux 0 rest by simp [collapseAux, hc]]
        rw [segsOK_replicate_append]
        rw [segsOK_eq] at hs ⊢
        rw [Bool.and_eq_true] at hs ⊢
        refine ⟨?_, ?_⟩
        · rw [headSeg_cons_ne hc, headSeg_collapseAux_zero rest]
          rw [headSeg_cons_ne hc] at hs
          exact hs.1
        · rw [tailOK_cons_ne hc]
          rw [tailOK_cons_ne hc] at hs
          exact (collapseAux_segsOK rest 0).1 hs.2

/-- The collapse step preserves segsOK. -/
theorem collapseNl_segsOK {s : List Char} (h : segsOK s = true) :
    segsOK (collapseNl s) = true := by
  unfold collapseNl
  rw [segsOK_eq, Bool.and_eq_true]
  rw [segsOK_eq, Bool.and_eq_true] at h
  exact ⟨by rw [headSeg_collapseAux_zero s]; exact h.1,
    (collapseAux_segsOK s 0).1 h.2⟩

/-- Blanking whitespace-only lines is the identity when there are none. -/
theorem blankWsLines_eq_self {s : List Char} (h : segsOK s = true) :
    blankWsLines s = s := by
  unfold blankWsLines
  have hmap : (splitNl s).map blankWs = (splitNl s).map id := by
    apply List.map_congr_left
    intro l hl
    have hok : segLineOK l = true := by
      unfold segsOK at h
      rw [List.all_eq_true] at h
      exact h l hl
    unfold blankWs
    unfold segLineOK at hok
    rw [Bool.or_eq_true] at hok
    rcases hok with hok | hok
    · rw [if_neg (by rw [hok]; simp)]
      rfl
    · rw [if_neg (by rw [Bool.not_eq_true'] at hok; rw [hok]; simp)]
      rfl
  rw [hmap, List.map_id, joinNl_splitNl]

/-- Space or tab is whitespace. -/
theorem isPyWS_of_isSpTab {c : Char} (h : isSpTab c = true) :
    isPyWS c = true := by
  unfold isSpTab at h
  unfold isPyWS
  rw [Bool.or_eq_true] at h
  rcases h with h | h <;> simp [h]

/-- A left part of a concatenation that does not end in space or tab keeps
all segments acceptable. -/
theorem segsOK_append_left {w t : List Char} (h : segsOK (w ++ t) = true)
    (hend : w = [] ∨ ∃ c, w.getLast? = some c ∧ isSpTab c = false) :
    segsOK w = true := by
  rcases hend with rfl | ⟨c, hc, hcst⟩
  · rfl
  · have hLok : segLineOK ((splitNl w).getLastD []) = true := by
      by_cases hnl : c = '\n'
      · subst hnl
        rw [lastSeg_of_endsNL hc]
        rfl
      · have hL := lastSeg_getLast hc hnl
        unfold segLineOK
        rw [Bool.or_eq_true]
        right
        rw [Bool.not_eq_true']
        rw [Bool.eq_false_iff]
        intro hall
        rw [List.all_eq_true] at hall
        exact absurd (hall c (mem_of_getLastEq hL)) (by rw [hcst]; simp)
    have happ := splitNl_append w t
    unfold segsOK at h
    rw [happ, List.all_append] at h
    rw [Bool.and_eq_true] at h
    have hne := splitNl_ne_nil w
    have hgd : (splitNl w).getLastD [] = (splitNl w).getLast hne := by
      rw [List.getLastD_eq_getLast?, List.getLast?_eq_getLast_of_ne_nil hne]
      rfl
    unfold segsOK
    conv_lhs => rw [← List.dropLast_append_getLast hne]
    rw [List.all_append, Bool.and_eq_true]
    refine ⟨h.1, ?_⟩
    rw [List.all_cons, List.all_nil, Bool.and_true]
    rw [← hgd]
    exact hLok

/-- The collapse step introduces no carriage return. -/
theorem collapseAux_noCR :
    ∀ (s : List Char) (n : Nat), '\r' ∉ s → '\r' ∉ collapseAux n s
  | [], n, _ => by
    rw [show collapseAux n [] =
      List.replicate (if n ≥ 3 then 2 else n) '\n' from rfl]
    intro hm
    have := List.eq_of_mem_replicate hm
    exact absurd this (by decide)
  | c :: rest, n, h => by
    have hrest : '\r' ∉ rest := fun hm => h (List.mem_cons_of_mem c hm)
    by_cases hc : c = '\n'
    · rw [show collapseAux n (c :: rest) = collapseAux (n + 1) rest by
        simp [collapseAux, hc]]
      exact collapseAux_noCR rest (n + 1) hrest
    · rw [show collapseAux n (c :: rest) =
        List.replicate (if n ≥ 3 then 2 else n) '\n' ++
          c :: collapseAux 0 rest by simp [collapseAux, hc]]
      intro hm
      rcases List.mem_append.mp hm with hm | hm
      · exact absurd (List.eq_of_mem_replicate hm) (by decide)
      · rcases List.mem_cons.mp hm with hm | hm
        · exact h (by rw [hm]; exact List.mem_cons_self c rest)
        · exact collapseAux_noCR rest 0 hrest hm

/-- endsNonWs only looks at the last element. -/
theorem endsNonWs_cons_cons (a b : Char) (l : List Char) :
    endsNonWs (a :: b :: l) = endsNonWs (b :: l) := by
  unfold endsNonWs
  rw [List.getLast?_cons_cons]

/-- Appending a final newline to content that does not end in whitespace
cannot create a triple newline. -/
theorem no3_snoc_nl :
    ∀ {w : List Char}, no3 w = true → endsNonWs w = true →
      no3 (w ++ ['\n']) = true
  | [], _, _ => rfl
  | [x], _, _ => rfl
  | [x, y], _, hw => by
    have hy : ¬y = '\n' := by
      unfold endsNonWs at hw
      rw [show ([x, y] : List Char).getLast? = some y from rfl] at hw
      intro hy
      rw [hy] at hw
      simp [isPyWS] at hw
    rw [show ([x, y] : List Char) ++ ['\n'] = x :: y :: '\n' :: [] from rfl,
      no3_cons3, Bool.and_eq_true]
    refine ⟨by simp [hy], rfl⟩
  | x :: y :: z :: r, h3, hw => by
    rw [List.cons_append, List.cons_append, List.cons_append, no3_cons3,
      Bool.and_eq_true]
    rw [no3_cons3, Bool.and_eq_true] at h3
    refine ⟨h3.1, ?_⟩
    have ih := no3_snoc_nl h3.2 (by
      rw [← endsNonWs_cons_cons x y (z :: r)]
      exact hw)
    rw [List.cons_append, List.cons_append] at ih
    exact ih

/-- Stripping a trailing class character from content that otherwise ends
outside the class removes exactly that character. -/
theorem rstripP_snoc (p : Char → Bool) {c0 : Char} (hp : p c0 = true) :
    ∀ {w : List Char},
      (w = [] ∨ ∃ c, w.getLast? = some c ∧ p c = false) →
      rstripP p (w ++ [c0]) = w
  | [], _ => by
    rw [List.nil_append, rstripP_cons]
    rw [if_pos ⟨rfl, hp⟩]
  | x :: w', hend => by
    rcases hend with hend | ⟨c, hc, hpc⟩
    · exact absurd hend (List.cons_ne_nil x w')
    · cases hw' : w' with
      | nil =>
        subst hw'
        simp only [List.getLast?_singleton, Option.some_inj] at hc
        subst hc
        rw [List.cons_append, List.nil_append, rstripP_cons]
        rw [show rstripP p [c0] = [] by
          rw [rstripP_cons]; rw [if_pos ⟨rfl, hp⟩]]
        rw [if_neg (by rintro ⟨_, hx⟩; rw [hpc] at hx; exact absurd hx (by simp))]
      | cons e t =>
        subst hw'
        have hc2 : (e :: t).getLast? = some c := by
          rw [← List.getLast?_cons_cons (a := x)]
          exact hc
        have ih := rstripP_snoc p hp (w := e :: t) (Or.inr ⟨c, hc2, hpc⟩)
        rw [List.cons_append, rstripP_cons, ih]
        rw [if_neg (by rintro ⟨hnil, _⟩; simp at hnil)]

/-- The full rstrip leaves content that is empty or ends outside the
whitespace class. -/
theorem rstripWs_endsNonWs (l : List Char) :
    endsNonWs (rstripWs l) = true := by
  unfold endsNonWs
  cases hg : (rstripWs l).getLast? with
  | none => rfl
  | some c =>
    have hmm := rstripP_getLast isPyWS (l := l) hg
    show (!isPyWS c) = true
    rw [hmm]
    rfl

/-- endsNonWs gives the disjunctive form used by the strip lemmas. -/
theorem endsNonWs_spec {w : List Char} (h : endsNonWs w = true) :
    w = [] ∨ ∃ c, w.getLast? = some c ∧ isPyWS c = false := by
  cases hg : w.getLast? with
  | none =>
    left
    rcases w with _ | ⟨x, t⟩
    · rfl
    · simp at hg
  | some c =>
    right
    refine ⟨c, rfl, ?_⟩
    unfold endsNonWs at h
    rw [hg] at h
    rw [Bool.not_eq_true'] at h
    exact h

/-- rstripSpTab unfolds to the parametric strip. -/
theorem rstripSpTab_eq (l : List Char) : rstripSpTab l = rstripP isSpTab l := rfl

/-- rstripWs unfolds to the parametric strip. -/
theorem rstripWs_eq (l : List Char) : rstripWs l = rstripP isPyWS l := rfl

/-- A character that is not whitespace is not space or tab. -/
theorem isSpTab_false_of_isPyWS_false {c : Char} (h : isPyWS c = false) :
    isSpTab c = false := by
  cases hst : isSpTab c
  · rfl
  · exact absurd (isPyWS_of_isSpTab hst) (by rw [h]; simp)

/-- The disjunctive end condition of a stripped list, for any class. -/
theorem rstripP_end_spec (p : Char → Bool) (l : List Char) :
    rstripP p l = [] ∨
      ∃ c, (rstripP p l).getLast? = some c ∧ p c = false := by
  cases hg : (rstripP p l).getLast? with
  | none =>
    left
    rcases he : rstripP p l with _ | ⟨x, t⟩
    · rfl
    · rw [he] at hg
      simp at hg
  | some c => exact Or.inr ⟨c, rfl, rstripP_getLast p hg⟩

/-- After one cleanup pass the output splits as a body that does not end in
whitespace followed by one newline, contains no carriage return, has no
triple newline and has no whitespace-only line, provided the decoded input
had no whitespace-only line. -/
theorem cleanup_props (C : List Char)
    (hseg : segsOK (univNewlines C) = true) :
    cleanup C = rstripWs (collapseNl (rstripSpTab (univNewlines C))) ++ ['\n'] ∧
    endsNonWs (rstripWs (collapseNl (rstripSpTab (univNewlines C)))) = true ∧
    '\r' ∉ cleanup C ∧ no3 (cleanup C) = true ∧ segsOK (cleanup C) = true := by
  have hcrD : '\r' ∉ univNewlines C := univNewlines_noCR C
  have hX : (cleanLines (readlines (univNewlines C))).flatten =
      rstripSpTab (univNewlines C) :=
    flatten_cleanLines_readlines (univNewlines C) hcrD
  obtain ⟨t, ht⟩ := rstripP_append isSpTab (univNewlines C)
  have hsegX : segsOK (rstripSpTab (univNewlines C)) = true := by
    apply segsOK_append_left (t := t)
    · rw [rstripSpTab_eq, ht]
      exact hseg
    · rw [rstripSpTab_eq]
      exact rstripP_end_spec isSpTab (univNewlines C)
  have hsegY : segsOK (collapseNl (rstripSpTab (univNewlines C))) = true :=
    collapseNl_segsOK hsegX
  have h3Y : no3 (collapseNl (rstripSpTab (univNewlines C))) = true :=
    collapseAux_no3 (rstripSpTab (univNewlines C)) 0
  have hcrX : '\r' ∉ rstripSpTab (univNewlines C) := fun hm =>
    hcrD (mem_rstripP isSpTab hm)
  have hcrY : '\r' ∉ collapseNl (rstripSpTab (univNewlines C)) :=
    collapseAux_noCR (rstripSpTab (univNewlines C)) 0 hcrX
  have hblank : blankWsLines (collapseNl (rstripSpTab (univNewlines C))) =
      collapseNl (rstripSpTab (univNewlines C)) :=
    blankWsLines_eq_self hsegY
  obtain ⟨t2, ht2⟩ :=
    rstripP_append isPyWS (collapseNl (rstripSpTab (univNewlines C)))
  have hendW : endsNonWs
      (rstripWs (collapseNl (rstripSpTab (univNewlines C)))) = true :=
    rstripWs_endsNonWs (collapseNl (rstripSpTab (univNewlines C)))
  have hcrW : '\r' ∉ rstripWs (collapseNl (rstripSpTab (univNewlines C))) :=
    fun hm => hcrY (mem_rstripP isPyWS hm)
  have h3W : no3 (rstripWs (collapseNl (rstripSpTab (univNewlines C)))) =
      true := by
    rw [rstripWs_eq]
    apply no3_append_left _ t2
    rw [ht2]
    exact h3Y
  have hsegW : segsOK
      (rstripWs (collapseNl (rstripSpTab (univNewlines C)))) = true := by
    rw [rstripWs_eq]
    apply segsOK_append_left (t := t2)
    · rw [ht2]
      exact hsegY
    · rcases rstripP_end_spec isPyWS
          (collapseNl (rstripSpTab (univNewlines C))) with h0 | ⟨c, hc, hpc⟩
      · exact Or.inl h0
      · exact Or.inr ⟨c, hc, isSpTab_false_of_isPyWS_false hpc⟩
  have hOeq : cleanup C =
      rstripWs (collapseNl (rstripSpTab (univNewlines C))) ++ ['\n'] := by
    unfold cleanup transformContent
    rw [flatten_readlines, hX, hblank]
  refine ⟨hOeq, hendW, ?_, ?_, ?_⟩
  · rw [hOeq]
    intro hm
    rcases List.mem_append.mp hm with hm | hm
    · exact hcrW hm
    · exact absurd (List.mem_singleton.mp hm) (by decide)
  · rw [hOeq]
    exact no3_snoc_nl h3W hendW
  · rw [hOeq]
    exact segsOK_snoc_nl hsegW

/-- The transform pipeline fixes any content of the shape it produces: a
body not ending in whitespace, a single final newline, no carriage return,
no triple newline, no whitespace-only line. -/
theorem transformContent_fixed {w : List Char} (hw : endsNonWs w = true)
    (hcr : '\r' ∉ w ++ ['\n']) (h3 : no3 (w ++ ['\n']) = true)
    (hseg : segsOK (w ++ ['\n']) = true) :
    transformContent (w ++ ['\n']) = w ++ ['\n'] := by
  have hlast : (w ++ ['\n']).getLast? = some '\n' := List.getLast?_concat w
  unfold transformContent
  rw [flatten_cleanLines_readlines (w ++ ['\n']) hcr]
  rw [show rstripSpTab (w ++ ['\n']) = w ++ ['\n'] from
    rstripP_eq_self isSpTab hlast (by decide)]
  rw [collapseNl_eq_self h3, blankWsLines_eq_self hseg]
  rw [rstripWs_eq, rstripP_snoc isPyWS (by decide) (endsNonWs_spec hw)]

/-- On carriage-return-free content, cleanup is the transform pipeline. -/
theorem cleanup_eq_transformContent {O : List Char} (hcr : '\r' ∉ O) :
    cleanup O = transformContent O := by
  unfold cleanup
  rw [univNewlines_eq_self hcr, flatten_readlines]

/-- C1 amended: on any content whose decoded text has no line consisting
solely of spaces and tabs, cleanup is idempotent, and re-running clean_file
on the cleaned content writes nothing and reports that no changes were
needed. -/
theorem claim_C1_amended (C : List Char)
    (hseg : segsOK (univNewlines C) = true) :
    cleanup (cleanup C) = cleanup C ∧
    ∀ (wb bf : Bool) (pw : List Char),
      clean_file (cleanup C) wb bf false none pw =
        { disk := cleanup C, backupKept := none, success := true
          reportedNoChanges := true } := by
  obtain ⟨hOeq, hendW, hcrO, h3O, hsegO⟩ := cleanup_props C hseg
  have hcr2 := hcrO
  have h32 := h3O
  have hseg2 := hsegO
  rw [hOeq] at hcr2 h32 hseg2
  have hfix : transformContent (cleanup C) = cleanup C := by
    rw [hOeq]
    exact transformContent_fixed hendW hcr2 h32 hseg2
  have hcup : cleanup (cleanup C) = cleanup C := by
    rw [cleanup_eq_transformContent hcrO]
    exact hfix
  refine ⟨hcup, ?_⟩
  intro wb bf pw
  have horig : ((readlines (univNewlines (cleanup C))).flatten) = cleanup C := by
    rw [univNewlines_eq_self hcrO, flatten_readlines]
  simp [clean_file, horig, hfix]

/-- C1 amended witness: a concrete two-line content with no whitespace-only
line is cleaned idempotently. -/
theorem claim_C1_witness :
    cleanup (cleanup (strL "a\nb")) = cleanup (strL "a\nb") :=
  (claim_C1_amended (strL "a\nb") (by decide)).1
